import Mathlib

/-!
Shallow embedding of `cmd/kubeadm/app/util/version.go` (package `util`):
the kubeadm version-resolution helpers. Strings are modelled as Lean
`String` (lists of unicode scalar values), the three compiled regular
expressions are translated into executable matchers over `List Char`,
and the network fetch is abstracted by an oracle mapping a URL to an
HTTP reply.
-/

namespace KubeadmUtil

/-! ## Character classes used by the regular expressions -/

/-- `[0-9]` (code points 48–57) -/
def isDigitCh (c : Char) : Bool := 48 ≤ c.toNat && c.toNat ≤ 57

/-- `[1-9]` (code points 49–57) -/
def isNonZeroDigit (c : Char) : Bool := 49 ≤ c.toNat && c.toNat ≤ 57

/-- `[a-zA-Z]` -/
def isAlphaCh (c : Char) : Bool :=
  (97 ≤ c.toNat && c.toNat ≤ 122) || (65 ≤ c.toNat && c.toNat ≤ 90)

/-- `[a-z]` (Go `[[:lower:]]`, ASCII) -/
def isLowerCh (c : Char) : Bool := 97 ≤ c.toNat && c.toNat ≤ 122

/-- Go regexp `\w` = `[0-9A-Za-z_]` -/
def isWordCh (c : Char) : Bool := isDigitCh c || isAlphaCh c || c = '_'

/-- Character class `[-0-9a-zA-Z_\.+]` of the suffix group of `kubeReleaseRegex`. -/
def relSuffixChar (c : Char) : Bool :=
  c = '-' || isDigitCh c || isAlphaCh c || c = '_' || c = '.' || c = '+'

/-- Character class `[-\w_\.]` of the tail group of `kubeReleaseLabelRegex`. -/
def labelTailChar (c : Char) : Bool := c = '-' || isWordCh c || c = '.'

/-- Character class `[-\w_\.+]` of the remainder group of `kubeBucketPrefixes`. -/
def bucketChar (c : Char) : Bool := c = '-' || isWordCh c || c = '.' || c = '+'

/-- Characters allowed by an image tag: the complement of
`[^-a-zA-Z0-9_\.]` in `KubernetesVersionToImageTag`. -/
def imageTagAllowed (c : Char) : Bool :=
  c = '-' || isAlphaCh c || isDigitCh c || c = '_' || c = '.'

/-! ## Small list helpers (Go `strings` functions) -/

/-- Helper for `startsWithL`, recursing on the pattern. -/
def startsWithAux : List Char → List Char → Bool
  | [], _ => true
  | _ :: _, [] => false
  | q :: qs, c :: cs => c = q && startsWithAux qs cs

/-- `strings.HasPrefix` on character lists. -/
def startsWithL (l p : List Char) : Bool := startsWithAux p l

/-! ## `kubeReleaseRegex`

`^v?(0|[1-9][0-9]*)\.(0|[1-9][0-9]*)\.(0|[1-9][0-9]*)([-0-9a-zA-Z_\.+]*)?$`

`matchNum` consumes one `(0|[1-9][0-9]*)` group.  The alternation is
deterministic: the `0` branch fires exactly when the head is `'0'`, and
the `[1-9][0-9]*` branch consumes the maximal digit run (valid because
every regex element that can follow the group — a literal dot, or the
suffix class which contains the digits — makes maximal munch complete;
the equivalence proof with the declarative decomposition below certifies
this). -/

def matchNum : List Char → Option (List Char)
  | [] => none
  | c :: rest =>
    if c = '0' then some rest
    else if isNonZeroDigit c then some (rest.dropWhile isDigitCh)
    else none

/-- Consume a literal `'.'`. -/
def expectDot : List Char → Option (List Char)
  | [] => none
  | c :: r => if c = '.' then some r else none

/-- The body of `kubeReleaseRegex` after the optional `v`:
three dot-separated number groups followed by the optional suffix class. -/
def matchCore (l : List Char) : Bool :=
  (((((matchNum l).bind expectDot).bind matchNum).bind expectDot).bind matchNum).elim
    false (fun r => r.all relSuffixChar)

/-- `kubeReleaseRegex.MatchString` on character lists: the optional
leading `v` (deterministic, since a number group never starts with `v`)
followed by the core. -/
def kubeReleaseMatchL : List Char → Bool
  | [] => false
  | c :: rest => if c = 'v' then matchCore rest else matchCore (c :: rest)

/-! ## `kubeReleaseLabelRegex`

`^[[:lower:]]+(-[-\w_\.]+)?$`

Maximal munch on the leading lowercase run is exact: the optional group
must start with `'-'`, which is not lowercase, so no shorter run can
succeed. -/

def kubeReleaseLabelMatchL (l : List Char) : Bool :=
  decide (l.takeWhile isLowerCh ≠ []) &&
    (match l.dropWhile isLowerCh with
     | [] => true
     | '-' :: t => decide (t ≠ []) && t.all labelTailChar
     | _ => false)

/-! ## `kubeBucketPrefixes`

`^((release|ci|ci-cross)/)?([-\w_\.+]+)$`

Returns the two capture groups: the bucket tag (group 2, `[]` when the
optional group is unused, matching Go's empty submatch string) and the
remainder (group 3).  The three `tag/` prefixes are pairwise
incompatible and `/` is not in the remainder class, so the alternation
and the optional group are deterministic. -/

def bucketRest (tag rest : List Char) : Option (List Char × List Char) :=
  if rest ≠ [] && rest.all bucketChar then some (tag, rest) else none

def bucketMatchL (l : List Char) : Option (List Char × List Char) :=
  if startsWithL l ("release/".data) then bucketRest ("release".data) (l.drop 8)
  else if startsWithL l ("ci/".data) then bucketRest ("ci".data) (l.drop 3)
  else if startsWithL l ("ci-cross/".data) then bucketRest ("ci-cross".data) (l.drop 9)
  else bucketRest [] l

/-! ## Top-level pure helpers from the source -/

/-- `kubeReleaseBucketURL = "https://dl.k8s.io"` -/
def kubeReleaseBucketURL : String := "https://dl.k8s.io"

/-- `normalizedBuildVersion`: returns the version with a `v` prefix when
it matches `kubeReleaseRegex`, and the empty string otherwise. -/
def normalizedBuildVersion (version : String) : String :=
  if kubeReleaseMatchL version.data then
    if startsWithL version.data ['v'] then version
    else String.mk ('v' :: version.data)
  else ""

/-- `KubernetesVersionToImageTag`: replace every character outside
`[-a-zA-Z0-9_\.]` with `'_'`. -/
def KubernetesVersionToImageTag (version : String) : String :=
  String.mk (version.data.map (fun c => if imageTagAllowed c then c else '_'))

/-- `KubernetesIsCIVersion`: the request matches `kubeBucketPrefixes`
and its captured bucket tag has prefix `ci`. -/
def KubernetesIsCIVersion (version : String) : Bool :=
  match bucketMatchL version.data with
  | some (tag, _) => startsWithL tag ("ci".data)
  | none => false

/-- Errors surfaced by the resolver.  The source distinguishes exactly
one error shape (`status404Error`, recognised by `isStatus404Error`)
from all the others, which are plain formatted errors. -/
inductive VErr where
  | status404 (msg : String)
  | other (msg : String)
deriving DecidableEq

/-- `splitVersion`: split a request into the bucket base URL and the
remaining label/version text. -/
def splitVersion (version : String) : Except VErr (String × String) :=
  match bucketMatchL version.data with
  | none => Except.error (VErr.other ("invalid version \"" ++ version ++ "\""))
  | some (tag, rest) =>
    Except.ok
      (kubeReleaseBucketURL ++ "/" ++
        (if startsWithL tag ("ci".data) then String.mk tag else "release"),
       String.mk rest)

/-! ## The network fetch (`fetchFromURL`)

The actual HTTP GET is abstracted by an oracle `net : String → HttpReply`
mapping each URL to what the transport produced; the status/404/body
handling of `fetchFromURL` (source lines 174–195) is modelled
faithfully on top of it. -/

/-- Outcome of `client.Get(url)`: either a reply carrying the status
code and the result of reading the body (`Except.error` = body-read
failure), or a connection-level error. -/
inductive HttpReply where
  | reply (statusCode : Nat) (body : Except String String)
  | getError (msg : String)

/-- Go `unicode.IsSpace` (the characters `strings.TrimSpace` strips). -/
def goIsSpace (c : Char) : Bool :=
  c.toNat = 9 || c.toNat = 10 || c.toNat = 11 || c.toNat = 12 || c.toNat = 13 ||
  c.toNat = 32 || c.toNat = 133 || c.toNat = 160 || c.toNat = 0x1680 ||
  (0x2000 ≤ c.toNat && c.toNat ≤ 0x200a) ||
  c.toNat = 0x2028 || c.toNat = 0x2029 || c.toNat = 0x202f ||
  c.toNat = 0x205f || c.toNat = 0x3000

/-- `strings.TrimSpace` on character lists. -/
def goTrimSpaceL (l : List Char) : List Char :=
  ((l.dropWhile goIsSpace).reverse.dropWhile goIsSpace).reverse

/-- `strings.TrimSpace`. -/
def goTrimSpace (s : String) : String := String.mk (goTrimSpaceL s.data)

/-- `fetchFromURL`: non-200 statuses become errors, with 404 singled
out as `status404`; a successful body is returned trimmed. -/
def fetchFromURL (net : String → HttpReply) (url : String) : Except VErr String :=
  match net url with
  | HttpReply.getError e =>
    Except.error (VErr.other ("unable to get URL \"" ++ url ++ "\": " ++ e))
  | HttpReply.reply code body =>
    if code ≠ 200 then
      if code = 404 then
        Except.error (VErr.status404
          ("unable to fetch file. URL: \"" ++ url ++ "\", status: " ++ toString code))
      else
        Except.error (VErr.other
          ("unable to fetch file. URL: \"" ++ url ++ "\", status: " ++ toString code))
    else
      match body with
      | Except.error e =>
        Except.error (VErr.other
          ("unable to read content of URL \"" ++ url ++ "\": " ++ e))
      | Except.ok b => Except.ok (goTrimSpace b)

/-! ## The local fallback (`kubeadmVersion`) -/

/-- A parsed semantic version, as produced by the semantic-version
parser: numeric components plus the raw pre-release and build-metadata
strings (without their `-` / `+` markers). -/
structure SemVer where
  major : Nat
  minor : Nat
  patch : Nat
  pre : List Char
  build : List Char
deriving DecidableEq

/-- Decimal value of a digit run. -/
def digitsToNat (l : List Char) : Nat :=
  l.foldl (fun a c => 10 * a + (c.toNat - 48)) 0

/-- Parse one numeric component (no leading zeros). -/
def parseNum : List Char → Option (Nat × List Char)
  | [] => none
  | c :: rest =>
    if c = '0' then some (0, rest)
    else if isNonZeroDigit c then
      some (digitsToNat (c :: rest.takeWhile isDigitCh), rest.dropWhile isDigitCh)
    else none

/-- Characters permitted inside pre-release and build-metadata sections
(alphanumerics, hyphens and the dot separators). -/
def semverIdentChar (c : Char) : Bool :=
  isDigitCh c || isAlphaCh c || c = '-' || c = '.'

/-- Modelled from the spec: the semantic-version parser
`versionutil.ParseSemantic` (from `k8s.io/kubernetes/pkg/util/version`)
used by `kubeadmVersion` is not among the sources under verification.
Per the spec, the fallback deriver parses major/minor/patch numerically
from a semantic-version string that may carry a multi-segment
pre-release label and build metadata (e.g. `v1.9.0-alpha.0.1234+abcdef`)
and fails if the input is unparseable.  The model accepts an optional
leading `v`, three dot-separated numbers, an optional `-pre` section and
an optional `+build` section. -/
def parseSemanticL (l : List Char) : Option SemVer :=
  let l := if startsWithL l ['v'] then l.drop 1 else l
  match parseNum l with
  | none => none
  | some (maj, r1) =>
    match expectDot r1 with
    | none => none
    | some r1' =>
      match parseNum r1' with
      | none => none
      | some (mino, r2) =>
        match expectDot r2 with
        | none => none
        | some r2' =>
          match parseNum r2' with
          | none => none
          | some (pat, r3) =>
            match r3 with
            | [] => some ⟨maj, mino, pat, [], []⟩
            | '-' :: rest =>
              let pr := rest.takeWhile (fun c => semverIdentChar c && c ≠ '+')
              let r4 := rest.dropWhile (fun c => semverIdentChar c && c ≠ '+')
              if pr = [] then none
              else
                match r4 with
                | [] => some ⟨maj, mino, pat, pr, []⟩
                | '+' :: b =>
                  if decide (b ≠ []) && b.all semverIdentChar then
                    some ⟨maj, mino, pat, pr, b⟩
                  else none
                | _ => none
            | '+' :: b =>
              if decide (b ≠ []) && b.all semverIdentChar then
                some ⟨maj, mino, pat, [], b⟩
              else none
            | _ => none

/-- Go `strings.Split(l, ".")`. -/
def splitOnDot : List Char → List (List Char)
  | [] => [[]]
  | c :: rest =>
    if c = '.' then [] :: splitOnDot rest
    else
      match splitOnDot rest with
      | [] => [[c]]
      | g :: gs => (c :: g) :: gs

/-- The pre-release part of `kubeadmVersion`'s output (with its leading
`-`), from the parsed pre-release string: keep at most the first two
dot-separated segments, pad a lone segment with `.0`. -/
def kubeadmPre (pr : List Char) : List Char :=
  if pr.length > 0 then
    '-' :: (if (splitOnDot pr).length > 2 then
              (splitOnDot pr).getD 0 [] ++ '.' :: (splitOnDot pr).getD 1 []
            else if (splitOnDot pr).length < 2 then
              (splitOnDot pr).getD 0 [] ++ ('.' :: '0' :: [])
            else pr)
  else []

/-- `kubeadmVersion`: the client version without metadata.  Keeps at
most the first two dot-separated pre-release segments, padding a lone
segment with `.0`, and discards build metadata. -/
def kubeadmVersion (info : String) : Except VErr String :=
  match parseSemanticL info.data with
  | none => Except.error (VErr.other ("kubeadm version error: cannot parse \"" ++ info ++ "\""))
  | some v =>
    Except.ok ("v" ++ toString v.major ++ "." ++ toString v.minor ++ "." ++
      toString v.patch ++ String.mk (kubeadmPre v.pre))

/-! ## The resolver (`KubernetesReleaseVersion`)

The Go function recurses on the fetched body; the depth of that
recursion is not bounded by any structural measure of the input (a
label may resolve to another label), so the model takes an explicit
recursion budget.  Every equation and invariant below is uniform in the
budget. -/

/-- `KubernetesReleaseVersion`, parameterised by the network oracle and
the running client's own version string (`pkgversion.Get().String()`),
with an explicit recursion budget. -/
def KubernetesReleaseVersion (net : String → HttpReply) (clientVersion : String) :
    Nat → String → Except VErr String
  | 0, _ => Except.error (VErr.other "resolution depth exceeded")
  | fuel + 1, version =>
    if (normalizedBuildVersion version).data = [] then
      match splitVersion version with
      | Except.error e => Except.error e
      | Except.ok (bucketURL, versionLabel) =>
        if (normalizedBuildVersion versionLabel).data = [] then
          if kubeReleaseLabelMatchL versionLabel.data then
            match fetchFromURL net (bucketURL ++ "/" ++ versionLabel ++ ".txt") with
            | Except.ok body => KubernetesReleaseVersion net clientVersion fuel body
            | Except.error (VErr.status404 _) =>
              match kubeadmVersion clientVersion with
              | Except.ok body => KubernetesReleaseVersion net clientVersion fuel body
              | Except.error e => Except.error e
            | Except.error (VErr.other m) => Except.error (VErr.other m)
          else
            Except.error (VErr.other ("version \"" ++ version ++
              "\" doesn't match patterns for neither semantic version nor labels (stable, latest, ...)"))
        else Except.ok (normalizedBuildVersion versionLabel)
    else Except.ok (normalizedBuildVersion version)

/-! ## Declarative decompositions used to state the claims -/

/-- A string of the number group `(0|[1-9][0-9]*)`: `"0"`, or a nonzero
digit followed by digits (a non-negative integer with no leading
zero). -/
def NumLitL (n : List Char) : Prop :=
  n = ['0'] ∨ ∃ c cs, n = c :: cs ∧ isNonZeroDigit c = true ∧ cs.all isDigitCh = true

/-- The decomposition described by the body of `kubeReleaseRegex` after
the optional `v`: three dot-separated number groups and a (possibly
empty) suffix over the class `[-0-9a-zA-Z_\.+]`. -/
def ReleaseCoreDecomp (l : List Char) : Prop :=
  ∃ n1 n2 n3 suf, l = n1 ++ '.' :: (n2 ++ '.' :: (n3 ++ suf)) ∧
    NumLitL n1 ∧ NumLitL n2 ∧ NumLitL n3 ∧ suf.all relSuffixChar = true

/-- The declarative reading of `kubeReleaseRegex` itself: an optional
leading `v` followed by the core decomposition. -/
def ReleaseDecompL (l : List Char) : Prop :=
  ∃ vp n1 n2 n3 suf,
    (vp = [] ∨ vp = ['v']) ∧
    l = vp ++ (n1 ++ '.' :: (n2 ++ '.' :: (n3 ++ suf))) ∧
    NumLitL n1 ∧ NumLitL n2 ∧ NumLitL n3 ∧ suf.all relSuffixChar = true

/-- The decomposition described by `kubeBucketPrefixes`: either no
prefix (the whole input is the remainder), or one of the three bucket
tags followed by `/` and the remainder; the remainder is non-empty and
drawn from the class `[-\w_\.+]`. -/
def BucketDecompL (l tag rest : List Char) : Prop :=
  ((tag = [] ∧ l = rest) ∨
   (tag = "release".data ∧ l = tag ++ '/' :: rest) ∨
   (tag = "ci".data ∧ l = tag ++ '/' :: rest) ∨
   (tag = "ci-cross".data ∧ l = tag ++ '/' :: rest)) ∧
  rest ≠ [] ∧ rest.all bucketChar = true

/-- The claim's description of the literal-version rule, word for word:
an optional leading `v`, three dot-separated non-negative integers
without leading zeros, then optionally a suffix that *begins with*
`-`, `.`, `+`, or an alphanumeric character (nothing else is said
about the rest of the suffix). -/
def ClaimLiteralDesc (l : List Char) : Prop :=
  ∃ vp n1 n2 n3 suf,
    (vp = [] ∨ vp = ['v']) ∧
    l = vp ++ (n1 ++ '.' :: (n2 ++ '.' :: (n3 ++ suf))) ∧
    NumLitL n1 ∧ NumLitL n2 ∧ NumLitL n3 ∧
    (suf = [] ∨ ∃ c cs, suf = c :: cs ∧
      (c = '-' ∨ c = '.' ∨ c = '+' ∨ isAlphaCh c = true ∨ isDigitCh c = true))

/-! ## Concrete oracles used to exercise the resolver -/

/-- A network on which every URL yields HTTP 404. -/
def offlineNet : String → HttpReply := fun _ => HttpReply.reply 404 (Except.ok "")

/-- A network serving only `release/stable-1.txt`. -/
def stableNet : String → HttpReply := fun url =>
  if url = "https://dl.k8s.io/release/stable-1.txt" then
    HttpReply.reply 200 (Except.ok "v1.10.3\n")
  else HttpReply.getError "offline"

/-! ## Generic list lemmas -/

theorem startsWithAux_decomp : ∀ (p l : List Char), startsWithAux p l = true →
    l = p ++ l.drop p.length := by
  intro p
  induction p with
  | nil => intro l _; simp
  | cons q qs ih =>
    intro l h
    cases l with
    | nil => simp [startsWithAux] at h
    | cons c cs =>
      simp only [startsWithAux, Bool.and_eq_true, decide_eq_true_eq] at h
      obtain ⟨hq, h2⟩ := h
      subst hq
      simpa using congrArg (c :: ·) (ih cs h2)

theorem startsWith_decomp {l p : List Char} (h : startsWithL l p = true) :
    l = p ++ l.drop p.length :=
  startsWithAux_decomp p l h

theorem dropWhile_append_all {p : Char → Bool} :
    ∀ {cs : List Char}, cs.all p = true → ∀ t, (cs ++ t).dropWhile p = t.dropWhile p := by
  intro cs
  induction cs with
  | nil => intro _ t; rfl
  | cons c cs ih =>
    intro h t
    simp only [List.all_cons, Bool.and_eq_true] at h
    simp [List.dropWhile_cons, h.1, ih h.2]

theorem all_dropWhile {p q : Char → Bool} :
    ∀ {l : List Char}, l.all p = true → (l.dropWhile q).all p = true := by
  intro l
  induction l with
  | nil => intro h; exact h
  | cons c cs ih =>
    intro h
    simp only [List.all_cons, Bool.and_eq_true] at h
    by_cases hq : q c = true
    · simp [List.dropWhile_cons, hq, ih h.2]
    · simp only [List.dropWhile_cons, if_neg hq]
      simp [List.all_cons, h.1, h.2]

theorem takeWhile_all {p : Char → Bool} : ∀ (l : List Char), (l.takeWhile p).all p = true := by
  intro l
  induction l with
  | nil => rfl
  | cons c cs ih =>
    by_cases hc : p c = true
    · simp [List.takeWhile_cons, hc, ih]
    · simp [List.takeWhile_cons, hc]

theorem all_implies {p q : Char → Bool} (hpq : ∀ c, p c = true → q c = true) :
    ∀ {l : List Char}, l.all p = true → l.all q = true := by
  intro l h
  rw [List.all_eq_true] at h ⊢
  exact fun x hx => hpq x (h x hx)

/-! ## Character-class facts -/

theorem isDigitCh_of_nonzero {c : Char} (h : isNonZeroDigit c = true) : isDigitCh c = true := by
  simp [isNonZeroDigit, isDigitCh] at *; omega

theorem ne_v_of_digit {c : Char} (h : isDigitCh c = true) : ¬ (c = 'v') := by
  intro hc; subst hc; simp [isDigitCh] at h

theorem ne_zero_of_nonzero {c : Char} (h : isNonZeroDigit c = true) : ¬ (c = '0') := by
  intro hc; subst hc; simp [isNonZeroDigit] at h

theorem relSuffixChar_of_digit {c : Char} (h : isDigitCh c = true) : relSuffixChar c = true := by
  simp [relSuffixChar, h]

/-! ## The number group `(0|[1-9][0-9]*)` -/

theorem numlit_head {n : List Char} (h : NumLitL n) :
    ∃ d ds, n = d :: ds ∧ isDigitCh d = true := by
  rcases h with rfl | ⟨c, cs, rfl, hc, _⟩
  · exact ⟨'0', [], rfl, by decide⟩
  · exact ⟨c, cs, rfl, isDigitCh_of_nonzero hc⟩

theorem matchNum_sound {l r : List Char} (h : matchNum l = some r) :
    ∃ n, NumLitL n ∧ l = n ++ r := by
  cases l with
  | nil => simp [matchNum] at h
  | cons c rest =>
    simp only [matchNum] at h
    split at h
    · rename_i hc
      subst hc
      obtain rfl := Option.some.inj h
      exact ⟨['0'], Or.inl rfl, rfl⟩
    · split at h
      · rename_i hnz
        obtain rfl := Option.some.inj h
        refine ⟨c :: rest.takeWhile isDigitCh, Or.inr ⟨c, _, rfl, hnz, takeWhile_all rest⟩, ?_⟩
        simp [List.takeWhile_append_dropWhile]
      · exact absurd h (by simp)

theorem matchNum_numlit_dot {n : List Char} (h : NumLitL n) (t : List Char) :
    matchNum (n ++ '.' :: t) = some ('.' :: t) := by
  rcases h with rfl | ⟨c, cs, rfl, hc, hcs⟩
  · rfl
  · simp only [List.cons_append, matchNum, if_neg (ne_zero_of_nonzero hc), hc, if_pos rfl]
    rw [dropWhile_append_all hcs]
    rfl

theorem matchNum_numlit_suffix {n suf : List Char} (h : NumLitL n)
    (hs : suf.all relSuffixChar = true) :
    ∃ r, matchNum (n ++ suf) = some r ∧ r.all relSuffixChar = true := by
  rcases h with rfl | ⟨c, cs, rfl, hc, hcs⟩
  · exact ⟨suf, rfl, hs⟩
  · refine ⟨(cs ++ suf).dropWhile isDigitCh, ?_, ?_⟩
    · simp [List.cons_append, matchNum, if_neg (ne_zero_of_nonzero hc), hc]
    · exact all_dropWhile (by
        rw [List.all_append, Bool.and_eq_true]
        exact ⟨all_implies (fun c h => relSuffixChar_of_digit h) hcs, hs⟩)

/-! ## Declarative reading of `kubeReleaseRegex` -/

theorem expectDot_eq_some {r r' : List Char} : expectDot r = some r' ↔ r = '.' :: r' := by
  cases r with
  | nil => simp [expectDot]
  | cons c t =>
    simp only [expectDot]
    split
    · rename_i hc
      subst hc
      simp
    · rename_i hc
      simp [hc]

theorem matchCore_iff {l : List Char} : matchCore l = true ↔ ReleaseCoreDecomp l := by
  constructor
  · intro h
    unfold matchCore at h
    cases h1 : matchNum l with
    | none => rw [h1] at h; simp at h
    | some r1 =>
      rw [h1] at h
      simp only [Option.some_bind] at h
      cases h2 : expectDot r1 with
      | none => rw [h2] at h; simp at h
      | some r1' =>
        rw [h2] at h
        simp only [Option.some_bind] at h
        cases h3 : matchNum r1' with
        | none => rw [h3] at h; simp at h
        | some r2 =>
          rw [h3] at h
          simp only [Option.some_bind] at h
          cases h4 : expectDot r2 with
          | none => rw [h4] at h; simp at h
          | some r2' =>
            rw [h4] at h
            simp only [Option.some_bind] at h
            cases h5 : matchNum r2' with
            | none => rw [h5] at h; simp at h
            | some r3 =>
              rw [h5] at h
              simp only [Option.elim_some] at h
              obtain ⟨n1, hn1, rfl⟩ := matchNum_sound h1
              obtain ⟨n2, hn2, rfl⟩ := matchNum_sound h3
              obtain ⟨n3, hn3, rfl⟩ := matchNum_sound h5
              rw [expectDot_eq_some] at h2 h4
              exact ⟨n1, n2, n3, r3, by rw [h2, h4], hn1, hn2, hn3, h⟩
  · rintro ⟨n1, n2, n3, suf, rfl, h1, h2, h3, hs⟩
    unfold matchCore
    rw [matchNum_numlit_dot h1]
    simp only [Option.some_bind]
    rw [show expectDot ('.' :: (n2 ++ '.' :: (n3 ++ suf))) = some (n2 ++ '.' :: (n3 ++ suf)) from rfl]
    simp only [Option.some_bind]
    rw [matchNum_numlit_dot h2]
    simp only [Option.some_bind]
    rw [show expectDot ('.' :: (n3 ++ suf)) = some (n3 ++ suf) from rfl]
    simp only [Option.some_bind]
    obtain ⟨r, hr, hall⟩ := matchNum_numlit_suffix h3 hs
    rw [hr]
    simpa using hall

theorem kubeReleaseMatch_iff {l : List Char} : kubeReleaseMatchL l = true ↔ ReleaseDecompL l := by
  constructor
  · intro h
    cases l with
    | nil => simp [kubeReleaseMatchL] at h
    | cons c rest =>
      simp only [kubeReleaseMatchL] at h
      by_cases hc : c = 'v'
      · rw [if_pos hc] at h
        subst hc
        obtain ⟨n1, n2, n3, suf, he, h1, h2, h3, hs⟩ := matchCore_iff.mp h
        exact ⟨['v'], n1, n2, n3, suf, Or.inr rfl, by rw [he]; rfl, h1, h2, h3, hs⟩
      · rw [if_neg hc] at h
        obtain ⟨n1, n2, n3, suf, he, h1, h2, h3, hs⟩ := matchCore_iff.mp h
        exact ⟨[], n1, n2, n3, suf, Or.inl rfl, by rw [← he]; rfl, h1, h2, h3, hs⟩
  · rintro ⟨vp, n1, n2, n3, suf, hvp, rfl, h1, h2, h3, hs⟩
    rcases hvp with rfl | rfl
    · obtain ⟨d, ds, hn1, hd⟩ := numlit_head h1
      subst hn1
      simp only [List.nil_append, List.cons_append, kubeReleaseMatchL,
        if_neg (ne_v_of_digit hd)]
      rw [show d :: (ds ++ '.' :: (n2 ++ '.' :: (n3 ++ suf))) =
            (d :: ds) ++ '.' :: (n2 ++ '.' :: (n3 ++ suf)) from rfl]
      exact matchCore_iff.mpr ⟨d :: ds, n2, n3, suf, rfl, h1, h2, h3, hs⟩
    · simp only [List.cons_append, List.nil_append, kubeReleaseMatchL, if_pos rfl]
      exact matchCore_iff.mpr ⟨n1, n2, n3, suf, rfl, h1, h2, h3, hs⟩

/-! ## `normalizedBuildVersion` facts -/

theorem nbv_ok {v : String} (h : (normalizedBuildVersion v).data ≠ []) :
    startsWithL (normalizedBuildVersion v).data ['v'] = true ∧
    kubeReleaseMatchL (normalizedBuildVersion v).data = true := by
  unfold normalizedBuildVersion at h ⊢
  by_cases hm : kubeReleaseMatchL v.data = true
  · rw [if_pos hm] at h ⊢
    by_cases hs : startsWithL v.data ['v'] = true
    · rw [if_pos hs]
      exact ⟨hs, hm⟩
    · rw [if_neg hs]
      refine ⟨rfl, ?_⟩
      show kubeReleaseMatchL ('v' :: v.data) = true
      cases hd : v.data with
      | nil => rw [hd] at hm; simp [kubeReleaseMatchL] at hm
      | cons c rest =>
        rw [hd] at hm hs
        have hc : ¬ (c = 'v') := by
          intro hcv
          subst hcv
          exact hs rfl
        simp only [kubeReleaseMatchL, if_neg hc] at hm
        simp only [kubeReleaseMatchL, if_pos rfl]
        exact hm
  · rw [if_neg hm] at h
    exact absurd rfl h

/-! ## Declarative reading of `kubeBucketPrefixes` -/

theorem startsWith_eq_false_of_bucket {l p : List Char} (hall : l.all bucketChar = true)
    (hp : p.all bucketChar = false) : startsWithL l p = false := by
  cases hb : startsWithL l p with
  | false => rfl
  | true =>
    exfalso
    have hd := startsWith_decomp hb
    rw [hd, List.all_append, Bool.and_eq_true] at hall
    rw [hall.1] at hp
    exact Bool.true_eq_false.mp hp

theorem bucketMatch_some_iff {l tag rest : List Char} :
    bucketMatchL l = some (tag, rest) ↔ BucketDecompL l tag rest := by
  constructor
  · intro h
    unfold bucketMatchL at h
    split at h
    · rename_i hc1
      unfold bucketRest at h
      split at h
      · rename_i hcond
        rw [Bool.and_eq_true, decide_eq_true_eq] at hcond
        obtain ⟨he1, he2⟩ := Prod.mk.inj (Option.some.inj h)
        subst he1; subst he2
        refine ⟨Or.inr (Or.inl ⟨rfl, ?_⟩), hcond.1, hcond.2⟩
        have hd := startsWith_decomp hc1
        rw [show (("release/".data : List Char)).length = 8 from rfl] at hd
        exact hd
      · exact absurd h (by simp)
    · split at h
      · rename_i hc2
        unfold bucketRest at h
        split at h
        · rename_i hcond
          rw [Bool.and_eq_true, decide_eq_true_eq] at hcond
          obtain ⟨he1, he2⟩ := Prod.mk.inj (Option.some.inj h)
          subst he1; subst he2
          refine ⟨Or.inr (Or.inr (Or.inl ⟨rfl, ?_⟩)), hcond.1, hcond.2⟩
          have hd := startsWith_decomp hc2
          rw [show (("ci/".data : List Char)).length = 3 from rfl] at hd
          exact hd
        · exact absurd h (by simp)
      · split at h
        · rename_i hc3
          unfold bucketRest at h
          split at h
          · rename_i hcond
            rw [Bool.and_eq_true, decide_eq_true_eq] at hcond
            obtain ⟨he1, he2⟩ := Prod.mk.inj (Option.some.inj h)
            subst he1; subst he2
            refine ⟨Or.inr (Or.inr (Or.inr ⟨rfl, ?_⟩)), hcond.1, hcond.2⟩
            have hd := startsWith_decomp hc3
            rw [show (("ci-cross/".data : List Char)).length = 9 from rfl] at hd
            exact hd
          · exact absurd h (by simp)
        · unfold bucketRest at h
          split at h
          · rename_i hcond
            rw [Bool.and_eq_true, decide_eq_true_eq] at hcond
            obtain ⟨he1, he2⟩ := Prod.mk.inj (Option.some.inj h)
            subst he1; subst he2
            exact ⟨Or.inl ⟨rfl, rfl⟩, hcond.1, hcond.2⟩
          · exact absurd h (by simp)
  · rintro ⟨hcase, hne, hall⟩
    rcases hcase with ⟨rfl, rfl⟩ | ⟨rfl, rfl⟩ | ⟨rfl, rfl⟩ | ⟨rfl, rfl⟩
    · unfold bucketMatchL
      rw [if_neg (by
            rw [startsWith_eq_false_of_bucket hall (by decide)]
            exact Bool.false_ne_true),
          if_neg (by
            rw [startsWith_eq_false_of_bucket hall (by decide)]
            exact Bool.false_ne_true),
          if_neg (by
            rw [startsWith_eq_false_of_bucket hall (by decide)]
            exact Bool.false_ne_true)]
      unfold bucketRest
      rw [if_pos (by simp [hne, hall])]
    · unfold bucketMatchL
      rw [if_pos (show startsWithL ("release".data ++ '/' :: rest) ("release/".data) = true from rfl)]
      rw [show ("release".data ++ '/' :: rest).drop 8 = rest from rfl]
      unfold bucketRest
      rw [if_pos (by simp [hne, hall])]
    · unfold bucketMatchL
      rw [if_neg (show ¬ (startsWithL ("ci".data ++ '/' :: rest) ("release/".data) = true) by
            rw [show startsWithL ("ci".data ++ '/' :: rest) ("release/".data) = false from rfl]
            exact Bool.false_ne_true)]
      rw [if_pos (show startsWithL ("ci".data ++ '/' :: rest) ("ci/".data) = true from rfl)]
      rw [show ("ci".data ++ '/' :: rest).drop 3 = rest from rfl]
      unfold bucketRest
      rw [if_pos (by simp [hne, hall])]
    · unfold bucketMatchL
      rw [if_neg (show ¬ (startsWithL ("ci-cross".data ++ '/' :: rest) ("release/".data) = true) by
            rw [show startsWithL ("ci-cross".data ++ '/' :: rest) ("release/".data) = false from rfl]
            exact Bool.false_ne_true)]
      rw [if_neg (show ¬ (startsWithL ("ci-cross".data ++ '/' :: rest) ("ci/".data) = true) by
            rw [show startsWithL ("ci-cross".data ++ '/' :: rest) ("ci/".data) = false from rfl]
            exact Bool.false_ne_true)]
      rw [if_pos (show startsWithL ("ci-cross".data ++ '/' :: rest) ("ci-cross/".data) = true from rfl)]
      rw [show ("ci-cross".data ++ '/' :: rest).drop 9 = rest from rfl]
      unfold bucketRest
      rw [if_pos (by simp [hne, hall])]

/-! ## `splitOnDot` facts and the shape of `kubeadmPre` -/

theorem splitOnDot_ne_nil : ∀ l : List Char, splitOnDot l ≠ [] := by
  intro l
  cases l with
  | nil => simp [splitOnDot]
  | cons c rest =>
    simp only [splitOnDot]
    split
    · simp
    · split
      · simp
      · simp

theorem splitOnDot_no_dot : ∀ (l : List Char) (g : List Char), g ∈ splitOnDot l → ¬ ('.' ∈ g) := by
  intro l
  induction l with
  | nil =>
    intro g hg
    simp [splitOnDot] at hg
    simp [hg]
  | cons c rest ih =>
    intro g hg
    simp only [splitOnDot] at hg
    by_cases hc : c = '.'
    · rw [if_pos hc] at hg
      rcases List.mem_cons.mp hg with rfl | hg'
      · simp
      · exact ih g hg'
    · rw [if_neg hc] at hg
      cases hs : splitOnDot rest with
      | nil => exact absurd hs (splitOnDot_ne_nil rest)
      | cons g0 gs =>
        rw [hs] at hg
        rcases List.mem_cons.mp hg with rfl | hg'
        · intro hmem
          rcases List.mem_cons.mp hmem with hdc | hg0
          · exact hc hdc.symm
          · exact ih g0 (hs ▸ List.mem_cons_self g0 gs) hg0
        · exact ih g (hs ▸ List.mem_cons_of_mem g0 hg')

theorem splitOnDot_append_dot {a : List Char} (ha : ¬ ('.' ∈ a)) (b : List Char) :
    splitOnDot (a ++ '.' :: b) = a :: splitOnDot b := by
  induction a with
  | nil => simp [splitOnDot]
  | cons c a' ih =>
    have hc : ¬ (c = '.') := fun hcd => ha (hcd ▸ List.mem_cons_self c a')
    have ha' : ¬ ('.' ∈ a') := fun hm => ha (List.mem_cons_of_mem c hm)
    simp only [List.cons_append, splitOnDot, if_neg hc]
    rw [List.append_eq, ih ha']

theorem splitOnDot_of_no_dot {a : List Char} (ha : ¬ ('.' ∈ a)) : splitOnDot a = [a] := by
  induction a with
  | nil => rfl
  | cons c a' ih =>
    have hc : ¬ (c = '.') := fun hcd => ha (hcd ▸ List.mem_cons_self c a')
    have ha' : ¬ ('.' ∈ a') := fun hm => ha (List.mem_cons_of_mem c hm)
    simp only [splitOnDot, if_neg hc]
    rw [ih ha']

/-- Whenever the parsed pre-release is non-empty, `kubeadmVersion`'s
pre-release part is a `-` followed by exactly two dot-separated
segments. -/
theorem kubeadmPre_spec {pr : List Char} (h : pr ≠ []) :
    ∃ p2, kubeadmPre pr = '-' :: p2 ∧ (splitOnDot p2).length = 2 := by
  unfold kubeadmPre
  rw [if_pos (List.length_pos.mpr h)]
  by_cases h2 : (splitOnDot pr).length > 2
  · rw [if_pos h2]
    obtain ⟨g0, g1, t, hsp⟩ : ∃ g0 g1 t, splitOnDot pr = g0 :: g1 :: t := by
      cases hs : splitOnDot pr with
      | nil => rw [hs] at h2; simp at h2
      | cons x rest =>
        cases rest with
        | nil => rw [hs] at h2; simp at h2
        | cons y t => exact ⟨x, y, t, rfl⟩
    rw [hsp]
    refine ⟨g0 ++ '.' :: g1, rfl, ?_⟩
    have hg0 : ¬ ('.' ∈ g0) := splitOnDot_no_dot pr g0 (hsp ▸ List.mem_cons_self _ _)
    have hg1 : ¬ ('.' ∈ g1) :=
      splitOnDot_no_dot pr g1 (hsp ▸ List.mem_cons_of_mem _ (List.mem_cons_self _ _))
    rw [splitOnDot_append_dot hg0, splitOnDot_of_no_dot hg1]
    rfl
  · rw [if_neg h2]
    by_cases h1 : (splitOnDot pr).length < 2
    · rw [if_pos h1]
      obtain ⟨g0, hsp⟩ : ∃ g0, splitOnDot pr = [g0] := by
        cases hs : splitOnDot pr with
        | nil => exact absurd hs (splitOnDot_ne_nil pr)
        | cons x rest =>
          cases rest with
          | nil => exact ⟨x, rfl⟩
          | cons y t =>
            rw [hs] at h1
            simp only [List.length_cons] at h1
            exact absurd h1 (by omega)
      rw [hsp]
      refine ⟨g0 ++ '.' :: '0' :: [], rfl, ?_⟩
      have hg0 : ¬ ('.' ∈ g0) := splitOnDot_no_dot pr g0 (hsp ▸ List.mem_cons_self _ _)
      rw [splitOnDot_append_dot hg0]
      rfl
    · rw [if_neg h1]
      exact ⟨pr, rfl, by omega⟩

/-! ## The resolver invariant -/

/-- Every string `KubernetesReleaseVersion` returns successfully came
out of `normalizedBuildVersion`, so it starts with `v` and matches
`kubeReleaseRegex` — uniform in the oracle, the client version and the
recursion budget. -/
theorem resolver_ok_inv (net : String → HttpReply) (cv : String) :
    ∀ (fuel : Nat) (version out : String),
      KubernetesReleaseVersion net cv fuel version = Except.ok out →
      startsWithL out.data ['v'] = true ∧ kubeReleaseMatchL out.data = true := by
  intro fuel
  induction fuel with
  | zero =>
    intro version out h
    simp [KubernetesReleaseVersion] at h
  | succ n ih =>
    intro version out h
    simp only [KubernetesReleaseVersion] at h
    split at h
    · -- (normalizedBuildVersion version).data = []
      split at h
      · -- splitVersion errored
        exact absurd h (by simp)
      · -- splitVersion ok
        split at h
        · -- (normalizedBuildVersion versionLabel).data = []
          split at h
          · -- label matches: the fetch
            split at h
            · exact ih _ _ h
            · split at h
              · exact ih _ _ h
              · exact absurd h (by simp)
            · exact absurd h (by simp)
          · exact absurd h (by simp)
        · -- returned normalizedBuildVersion versionLabel
          rename_i hlab
          obtain rfl := Except.ok.inj h
          exact nbv_ok hlab
    · -- returned normalizedBuildVersion version
      rename_i hver
      obtain rfl := Except.ok.inj h
      exact nbv_ok hver

/-! ## Claims -/

/-- C1: for every request on which `KubernetesReleaseVersion` returns
successfully, the returned string begins with `v` and matches the
literal-semantic-version pattern (`kubeReleaseRegex`), on every
successful path — the two normalization base cases, the recursion on a
fetched body, and the 404 fallback — uniformly in the network oracle,
the client version, and the recursion budget. -/
theorem claim_c1_resolved_version_invariant (net : String → HttpReply) (cv : String)
    (fuel : Nat) (version out : String)
    (h : KubernetesReleaseVersion net cv fuel version = Except.ok out) :
    startsWithL out.data ['v'] = true ∧ kubeReleaseMatchL out.data = true :=
  resolver_ok_inv net cv fuel version out h

theorem claim_c1_witness :
    KubernetesReleaseVersion offlineNet "v1.0.0" 1 "1.2.3" = Except.ok "v1.2.3" ∧
    (startsWithL ("v1.2.3" : String).data ['v'] = true ∧
      kubeReleaseMatchL ("v1.2.3" : String).data = true) :=
  ⟨rfl, claim_c1_resolved_version_invariant offlineNet "v1.0.0" 1 "1.2.3" "v1.2.3" rfl⟩

/-- C2: when resolution reaches the label-fetch step (neither
normalization base case fired, the split succeeded, and the remainder
matches the label rule), the result is determined by the fetch outcome:
a successful fetch recurses on the (trimmed) body; exactly the 404
failure falls back to the version derived from the running client's
version (recursing on it when derivation succeeds, surfacing the
derivation error otherwise); every other fetch failure is returned
unchanged with no version produced. -/
theorem claim_c2_label_fetch_behaviour (net : String → HttpReply) (cv : String)
    (fuel : Nat) (version bucketURL versionLabel : String)
    (h1 : (normalizedBuildVersion version).data = [])
    (h2 : splitVersion version = Except.ok (bucketURL, versionLabel))
    (h3 : (normalizedBuildVersion versionLabel).data = [])
    (h4 : kubeReleaseLabelMatchL versionLabel.data = true) :
    KubernetesReleaseVersion net cv (fuel + 1) version =
      match fetchFromURL net (bucketURL ++ "/" ++ versionLabel ++ ".txt") with
      | Except.ok body => KubernetesReleaseVersion net cv fuel body
      | Except.error (VErr.status404 _) =>
        match kubeadmVersion cv with
        | Except.ok body => KubernetesReleaseVersion net cv fuel body
        | Except.error e => Except.error e
      | Except.error (VErr.other m) => Except.error (VErr.other m) := by
  simp only [KubernetesReleaseVersion]
  rw [if_pos h1, h2]
  simp only [if_pos h3, if_pos h4]

theorem claim_c2_witness :
    KubernetesReleaseVersion stableNet "v1.11.0-beta.0.55+abc" 2 "stable-1" =
      Except.ok "v1.10.3" :=
  (claim_c2_label_fetch_behaviour stableNet "v1.11.0-beta.0.55+abc" 1 "stable-1"
      "https://dl.k8s.io/release" "stable-1" rfl rfl rfl rfl).trans rfl

/-- C3 counterexample: the claim says every successful result has the
canonical `vMAJOR.MINOR.PATCH[-PRERELEASE]` form with no `+` build
metadata, but the resolver returns the literal request
`"v1.2.3+abc"` unchanged, build metadata included. -/
theorem claim_c3_counterexample :
    KubernetesReleaseVersion offlineNet "v1.0.0" 1 "v1.2.3+abc" =
      Except.ok "v1.2.3+abc" ∧
    '+' ∈ ("v1.2.3+abc" : String).data :=
  ⟨rfl, by decide⟩

/-- C3 (amended): every string successfully returned by the resolver
decomposes as `v`, three dot-separated integers without leading zeros,
and a (possibly empty) suffix over the class `[-0-9a-zA-Z_.+]`; the
suffix is NOT restricted to a two-component pre-release and MAY contain
`+` build metadata, both passed through from literal requests. -/
theorem claim_c3_resolved_shape (net : String → HttpReply) (cv : String)
    (fuel : Nat) (version out : String)
    (h : KubernetesReleaseVersion net cv fuel version = Except.ok out) :
    ∃ n1 n2 n3 suf, out.data = 'v' :: (n1 ++ '.' :: (n2 ++ '.' :: (n3 ++ suf))) ∧
      NumLitL n1 ∧ NumLitL n2 ∧ NumLitL n3 ∧ suf.all relSuffixChar = true := by
  obtain ⟨hs, hm⟩ := resolver_ok_inv net cv fuel version out h
  obtain ⟨vp, n1, n2, n3, suf, hvp, he, h1, h2, h3, hsuf⟩ := kubeReleaseMatch_iff.mp hm
  rcases hvp with rfl | rfl
  · exfalso
    obtain ⟨d, ds, hn1, hd⟩ := numlit_head h1
    rw [he, hn1] at hs
    simp only [List.nil_append, List.cons_append, startsWithL, startsWithAux,
      Bool.and_eq_true, decide_eq_true_eq] at hs
    exact ne_v_of_digit hd hs.1
  · exact ⟨n1, n2, n3, suf, by simpa using he, h1, h2, h3, hsuf⟩

theorem claim_c3_witness :
    ∃ n1 n2 n3 suf,
      ("v1.2.3" : String).data = 'v' :: (n1 ++ '.' :: (n2 ++ '.' :: (n3 ++ suf))) ∧
      NumLitL n1 ∧ NumLitL n2 ∧ NumLitL n3 ∧ suf.all relSuffixChar = true :=
  claim_c3_resolved_shape offlineNet "v1.0.0" 1 "1.2.3" "v1.2.3" rfl

/-- C4: on any string matching the literal-version rule the resolver
returns immediately — uniformly in the network oracle, hence with no
network access — returning the string unchanged when it begins with
`v`, and `"v"` prepended to it otherwise. -/
theorem claim_c4_literal_identity (net : String → HttpReply) (cv : String) (fuel : Nat)
    (s : String) (h : kubeReleaseMatchL s.data = true) :
    (startsWithL s.data ['v'] = true →
      KubernetesReleaseVersion net cv (fuel + 1) s = Except.ok s) ∧
    (startsWithL s.data ['v'] = false →
      KubernetesReleaseVersion net cv (fuel + 1) s = Except.ok (String.mk ('v' :: s.data))) := by
  have hdata : s.data ≠ [] := by
    intro hnil
    rw [hnil] at h
    simp [kubeReleaseMatchL] at h
  constructor
  · intro hs
    have hnbv : normalizedBuildVersion s = s := by
      unfold normalizedBuildVersion
      rw [if_pos h, if_pos hs]
    have hne : (normalizedBuildVersion s).data ≠ [] := by rw [hnbv]; exact hdata
    simp only [KubernetesReleaseVersion]
    rw [if_neg hne, hnbv]
  · intro hs
    have hnbv : normalizedBuildVersion s = String.mk ('v' :: s.data) := by
      unfold normalizedBuildVersion
      rw [if_pos h, if_neg (by rw [hs]; exact Bool.false_ne_true)]
    have hne : (normalizedBuildVersion s).data ≠ [] := by rw [hnbv]; simp
    simp only [KubernetesReleaseVersion]
    rw [if_neg hne, hnbv]

theorem claim_c4_witness :
    KubernetesReleaseVersion offlineNet "v1.0.0" (0 + 1) "1.2.3" =
      Except.ok (String.mk ('v' :: ("1.2.3" : String).data)) :=
  (claim_c4_literal_identity offlineNet "v1.0.0" 0 "1.2.3" rfl).2 rfl

/-- C5: for every input decomposing under the bucket-prefix rule,
`splitVersion` returns the configured bucket root joined with the
captured prefix itself when that prefix starts with `ci` (preserving
`ci` vs `ci-cross`) and with the literal `release` otherwise (including
when no prefix is present), together with the remainder unchanged; for
every input not matching the bucket-prefix rule it fails with an
invalid-version error. -/
theorem claim_c5_split_version :
    (∀ (version : String) (tag rest : List Char),
        BucketDecompL version.data tag rest →
        splitVersion version = Except.ok
          (kubeReleaseBucketURL ++ "/" ++
            (if startsWithL tag ("ci".data) then String.mk tag else "release"),
           String.mk rest)) ∧
    (∀ version : String, (¬ ∃ tag rest, BucketDecompL version.data tag rest) →
        ∃ msg, splitVersion version = Except.error (VErr.other msg)) := by
  constructor
  · intro version tag rest hd
    unfold splitVersion
    rw [bucketMatch_some_iff.mpr hd]
  · intro version hne
    cases hb : bucketMatchL version.data with
    | none =>
      refine ⟨"invalid version \"" ++ version ++ "\"", ?_⟩
      unfold splitVersion
      rw [hb]
    | some pr =>
      obtain ⟨tag, rest⟩ := pr
      exact absurd ⟨tag, rest, bucketMatch_some_iff.mp hb⟩ hne

theorem claim_c5_witness :
    splitVersion "ci/latest-1.8" = Except.ok
      (kubeReleaseBucketURL ++ "/" ++
        (if startsWithL ("ci".data) ("ci".data) then String.mk ("ci".data) else "release"),
       String.mk ("latest-1.8".data)) :=
  claim_c5_split_version.1 "ci/latest-1.8" ("ci".data) ("latest-1.8".data)
    ⟨Or.inr (Or.inr (Or.inl ⟨rfl, rfl⟩)), by decide, by decide⟩

/-- C6: `KubernetesIsCIVersion` returns `true` exactly when the input
matches the bucket-prefix rule with a captured prefix beginning with
`ci` (covering `ci` and `ci-cross`); it is a pure function of the
input, and on the spec's examples: `ci/latest-1.8` ↦ true,
`stable-1.7` ↦ false, `release/v1.7.1` ↦ false. -/
theorem claim_c6_is_ci_version :
    (∀ version : String,
        KubernetesIsCIVersion version = true ↔
          ∃ tag rest, BucketDecompL version.data tag rest ∧
            startsWithL tag ("ci".data) = true) ∧
    KubernetesIsCIVersion "ci/latest-1.8" = true ∧
    KubernetesIsCIVersion "stable-1.7" = false ∧
    KubernetesIsCIVersion "release/v1.7.1" = false := by
  refine ⟨?_, rfl, rfl, rfl⟩
  intro version
  constructor
  · intro h
    unfold KubernetesIsCIVersion at h
    cases hb : bucketMatchL version.data with
    | none => rw [hb] at h; exact absurd h (by simp)
    | some pr =>
      obtain ⟨tag, rest⟩ := pr
      rw [hb] at h
      exact ⟨tag, rest, bucketMatch_some_iff.mp hb, h⟩
  · rintro ⟨tag, rest, hd, hci⟩
    unfold KubernetesIsCIVersion
    rw [bucketMatch_some_iff.mpr hd]
    exact hci

theorem claim_c6_witness :
    ∃ tag rest, BucketDecompL (("ci/latest-1.8" : String).data) tag rest ∧
      startsWithL tag ("ci".data) = true :=
  (claim_c6_is_ci_version.1 "ci/latest-1.8").mp claim_c6_is_ci_version.2.1

/-- C7: for every input the semantic-version parser accepts,
`kubeadmVersion` outputs `v{major}.{minor}.{patch}` — a function of the
numeric components and the pre-release only, so all build metadata is
discarded — followed, when a pre-release is present, by `-` and exactly
two dot-separated segments (third and later segments dropped, a lone
segment padded with `.0`); unparseable input yields an error; and on
the spec's examples `v1.9.0-alpha.0.1234+sha.abc` ↦ `v1.9.0-alpha.0`
and `v1.9.0-beta+meta` ↦ `v1.9.0-beta.0`. -/
theorem claim_c7_kubeadm_version :
    (∀ (info out : String), kubeadmVersion info = Except.ok out →
        ∃ v, parseSemanticL info.data = some v ∧
          out = "v" ++ toString v.major ++ "." ++ toString v.minor ++ "." ++
            toString v.patch ++ String.mk (kubeadmPre v.pre) ∧
          ((v.pre = [] ∧ kubeadmPre v.pre = []) ∨
           (v.pre ≠ [] ∧ ∃ p2, kubeadmPre v.pre = '-' :: p2 ∧
              (splitOnDot p2).length = 2))) ∧
    (∀ info : String, parseSemanticL info.data = none →
        ∃ msg, kubeadmVersion info = Except.error (VErr.other msg)) ∧
    kubeadmVersion "v1.9.0-alpha.0.1234+sha.abc" = Except.ok "v1.9.0-alpha.0" ∧
    kubeadmVersion "v1.9.0-beta+meta" = Except.ok "v1.9.0-beta.0" := by
  refine ⟨?_, ?_, rfl, rfl⟩
  · intro info out h
    unfold kubeadmVersion at h
    cases hp : parseSemanticL info.data with
    | none => rw [hp] at h; exact absurd h (by simp)
    | some v =>
      rw [hp] at h
      refine ⟨v, rfl, (Except.ok.inj h).symm, ?_⟩
      by_cases hpre : v.pre = []
      · exact Or.inl ⟨hpre, by rw [hpre]; rfl⟩
      · exact Or.inr ⟨hpre, kubeadmPre_spec hpre⟩
  · intro info hp
    refine ⟨"kubeadm version error: cannot parse \"" ++ info ++ "\"", ?_⟩
    unfold kubeadmVersion
    rw [hp]

theorem claim_c7_witness :
    ∃ v, parseSemanticL (("v1.9.0-beta+meta" : String).data) = some v ∧
      ("v1.9.0-beta.0" : String) = "v" ++ toString v.major ++ "." ++ toString v.minor ++
        "." ++ toString v.patch ++ String.mk (kubeadmPre v.pre) ∧
      ((v.pre = [] ∧ kubeadmPre v.pre = []) ∨
       (v.pre ≠ [] ∧ ∃ p2, kubeadmPre v.pre = '-' :: p2 ∧ (splitOnDot p2).length = 2)) :=
  claim_c7_kubeadm_version.1 "v1.9.0-beta+meta" "v1.9.0-beta.0" rfl

/-- C8: `KubernetesVersionToImageTag` is total — a plain function on
all strings — and for every input the output consists solely of
characters in `[A-Za-z0-9_.-]` and has the same length as the input. -/
theorem claim_c8_image_tag_total (version : String) :
    (KubernetesVersionToImageTag version).data.all imageTagAllowed = true ∧
    (KubernetesVersionToImageTag version).length = version.length := by
  constructor
  · unfold KubernetesVersionToImageTag
    rw [List.all_eq_true]
    intro x hx
    obtain ⟨c, hc, rfl⟩ := List.mem_map.mp hx
    by_cases h : imageTagAllowed c = true
    · rw [if_pos h]; exact h
    · rw [if_neg h]; decide
  · unfold KubernetesVersionToImageTag
    show (version.data.map _).length = version.data.length
    exact List.length_map _ _

/-- C9 counterexample: the claim's own description (suffix merely
*beginning* with `-`, `.`, `+` or an alphanumeric, rest arbitrary)
accepts `"1.2.3-!"`, which `kubeReleaseRegex` rejects (`!` is outside
the suffix class `[-0-9a-zA-Z_.+]`; the claim also omits `_` from the
allowed suffix starts even though the class contains it). -/
theorem claim_c9_counterexample :
    ClaimLiteralDesc (("1.2.3-!" : String).data) ∧
    kubeReleaseMatchL (("1.2.3-!" : String).data) = false := by
  constructor
  · refine ⟨[], ['1'], ['2'], ['3'], ['-', '!'], Or.inl rfl, by decide,
      Or.inr ⟨'1', [], rfl, by decide, by decide⟩,
      Or.inr ⟨'2', [], rfl, by decide, by decide⟩,
      Or.inr ⟨'3', [], rfl, by decide, by decide⟩,
      Or.inr ⟨'-', ['!'], rfl, Or.inl rfl⟩⟩
  · rfl

/-- C9 (amended): the literal-version rule accepts a string iff it is
an optional leading `v`, three dot-separated non-negative integers with
no leading zeros (unless exactly `0`), and an optional suffix all of
whose characters lie in the class `[-0-9a-zA-Z_.+]` (hyphen, digits,
letters, underscore, dot, plus) — not an arbitrary suffix constrained
only in its first character. -/
theorem claim_c9_literal_rule (s : String) :
    kubeReleaseMatchL s.data = true ↔ ReleaseDecompL s.data :=
  kubeReleaseMatch_iff

/-- C10: the image-tag sanitizer is idempotent. -/
theorem claim_c10_image_tag_idempotent (s : String) :
    KubernetesVersionToImageTag (KubernetesVersionToImageTag s) =
      KubernetesVersionToImageTag s := by
  unfold KubernetesVersionToImageTag
  show String.mk ((s.data.map _).map _) = _
  rw [List.map_map]
  have hf : ((fun c => if imageTagAllowed c then c else '_') ∘
      (fun c => if imageTagAllowed c then c else '_')) =
      (fun c => if imageTagAllowed c then c else '_') := by
    funext c
    by_cases h : imageTagAllowed c = true
    · simp [h]
    · simp [h]
  rw [hf]

end KubeadmUtil
